import Mathlib

/-!
Shallow embedding of the dryass-backup repository (src/utils.py, src/main.py,
src/multi_thread.py, src/BACKUP/functions.py), used to check the repository's
natural-language specification against the code.

Modelling conventions:
* File contents are byte lists (`List Nat`).
* The BLAKE3 digest is modelled by an injective, executable stand-in
  (`blake3Digest`): the code relies on the hash only to detect content
  (in)equality, so the collision-free abstraction length-prefixes the fed
  byte stream.  `hasher.update` calls accumulate a fed stream; `hexdigest`
  hashes the accumulated stream.
* I/O failures while reading a file are modelled by `Option`: a file whose
  content is `none` raises on read.
* Parallel completion order (`concurrent.futures.as_completed`) is an explicit
  parameter: a list of indices into the dispatched job list, quantified over
  permutations of `List.range n` in the theorems.
* Python string primitives (`str.lower`, `str.__lt__`, `pathlib.Path.suffix`)
  are re-implemented structurally on `String.data` so that concrete runs
  reduce inside the kernel.
-/

namespace Dryass

/-- Collision-free abstraction of a BLAKE3 digest of a byte stream: the hash
of distinct streams is distinct (modelled by length-prefixing the stream). -/
def blake3Digest (data : List Nat) : List Nat := data.length :: data

/-- `utils.get_file_hash`: stream the file through the hasher and return the
digest.  Chunking does not affect the fed stream, so the digest is a function
of the content bytes alone. -/
def get_file_hash (content : List Nat) : List Nat := blake3Digest content

/-- Python `str.__lt__` (code-point lexicographic) on character lists. -/
def strLtL : List Char → List Char → Bool
  | [], [] => false
  | [], _ :: _ => true
  | _ :: _, [] => false
  | a :: as, b :: bs =>
      if a.toNat < b.toNat then true
      else if b.toNat < a.toNat then false
      else strLtL as bs

/-- Python `str.__le__` on code points. -/
def strLe (a b : String) : Bool := ! strLtL b.data a.data

/-- ASCII lower-casing of one character (`str.lower` acts per character; all
extensions involved are ASCII). -/
def lowerChar (c : Char) : Char :=
  if 65 ≤ c.toNat ∧ c.toNat ≤ 90 then Char.ofNat (c.toNat + 32) else c

/-- Python `str.lower` for the ASCII strings used by the extension policy. -/
def lowerStr (s : String) : String := ⟨s.data.map lowerChar⟩

/-- Stable insertion of one element into a sorted list. -/
def insertLe (le : α → α → Bool) (x : α) : List α → List α
  | [] => [x]
  | y :: ys => if le x y then x :: y :: ys else y :: insertLe le x ys

/-- Stable sort, model of Python `list.sort` (which is a stable sort). -/
def sortBy (le : α → α → Bool) : List α → List α
  | [] => []
  | x :: xs => insertLe le x (sortBy le xs)

mutual
/-- A filesystem entry: a file with (possibly unreadable) content, or a
directory with its children in listing order. -/
inductive FSEntry : Type where
  | file (name : String) (content : Option (List Nat))
  | dir (name : String) (children : FSList)
/-- Directory contents (a list of entries, as a mutual inductive so that the
walk functions below are structurally recursive and kernel-evaluable). -/
inductive FSList : Type where
  | nil
  | cons (e : FSEntry) (rest : FSList)
end

/-- Convert an ordinary entry list into directory contents. -/
def FSList.ofList : List FSEntry → FSList
  | [] => .nil
  | e :: es => .cons e (FSList.ofList es)

/-- Files directly inside a directory's entry list (`os.walk`'s `filenames`
for one directory), with paths joined onto `pre`. -/
def listFiles (pre : String) : FSList → List (String × Option (List Nat))
  | .nil => []
  | .cons (.file n c) es => (pre ++ n, c) :: listFiles pre es
  | .cons (.dir _ _) es => listFiles pre es

/-- Recursive walk below the subdirectories of an entry list: for each child
directory in listing order, its own files followed by its subdirectories'
files (`os.walk` top-down). -/
def walkSubdirs (pre : String) : FSList → List (String × Option (List Nat))
  | .nil => []
  | .cons (.file _ _) es => walkSubdirs pre es
  | .cons (.dir n cs) es =>
      (listFiles (pre ++ n ++ "/") cs ++ walkSubdirs (pre ++ n ++ "/") cs)
        ++ walkSubdirs pre es

/-- `os.walk` over a directory given by its contents: every file below the
directory, with its path relative to the walk root joined with `/`. -/
def walkDir (pre : String) (es : FSList) : List (String × Option (List Nat)) :=
  listFiles pre es ++ walkSubdirs pre es

/-- The child directories of a directory, in listing order
(`[f for f in folder.iterdir() if f.is_dir()]`). -/
def childDirs : FSList → List (String × FSList)
  | .nil => []
  | .cons (.file _ _) es => childDirs es
  | .cons (.dir n cs) es => (n, cs) :: childDirs es

/-- The collected file list of `utils.get_folder_hash` after `files.sort()`:
all files below the folder, sorted by path.  (The source sorts absolute
paths; all share the folder's path as a prefix, so this equals sorting the
root-relative paths.) -/
def sortedFiles (es : FSList) : List (String × Option (List Nat)) :=
  sortBy (fun a b => strLe a.1 b.1) (walkDir "" es)

/-- The byte stream fed to the folder hasher by the `as_completed` loop of
`utils.get_folder_hash`: for each completed future, in completion order
(`order` indexes the sorted dispatch list), the per-file digest is fed; a
file whose read raised is skipped (the `except` branch prints and
continues). -/
def foldStream (files : List (String × Option (List Nat))) (order : List Nat) : List Nat :=
  (order.filterMap fun i => (files.get? i).bind fun p => p.2.map get_file_hash).flatten

/-- `utils.get_folder_hash`: collect and sort all files below `es`, hash each
in a worker pool, and fold the per-file digests into one combined digest in
worker completion order `order`. -/
def get_folder_hash (es : FSList) (order : List Nat) : List Nat :=
  blake3Digest (foldStream (sortedFiles es) order)

/-- Final path component (`pathlib.PurePath.name`): the part after the last
separator. -/
def baseName (s : List Char) : List Char :=
  (s.reverse.takeWhile (fun c => c ≠ '/')).reverse

/-- `pathlib.PurePath.suffix` on the final component: the substring from the
last dot, provided that dot is neither the first nor the last character;
otherwise the empty string. -/
def pySuffixL (name : List Char) : List Char :=
  let k := (name.reverse.takeWhile (fun c => c ≠ '.')).length
  if 0 < k ∧ k < name.length - 1 then name.drop (name.length - 1 - k) else []

/-- `pathlib.PurePath.suffix` of a path string. -/
def pySuffix (s : String) : String := ⟨pySuffixL (baseName s.data)⟩

/-- `utils.SKIP_EXT`: the configured skip-set of already-compressed
extensions (lower-case). -/
def SKIP_EXT : List String :=
  [".mp3", ".ogg", ".aac", ".opus", ".flac", ".wma", ".m4a", ".mid", ".midi",
   ".mp4", ".avi", ".mkv", ".mov", ".wmv", ".webm", ".flv",
   ".jpg", ".jpeg", ".png", ".gif", ".bmp", ".tga", ".dds", ".webp", ".ico",
   ".zip", ".rar", ".7z", ".gz", ".tar", ".tgz", ".xz", ".bz2",
   ".pak", ".vpk", ".bnk", ".pck", ".p4k",
   ".apk", ".iso", ".cab", ".cpk", ".dat"]

/-- `file.suffix.lower() in SKIP_EXT`: the classification test shared by
`multi_thread.process_file`, `main.backup`, and the 7z compressors. -/
def hasSkipExt (path : String) : Bool := decide (lowerStr (pySuffix path) ∈ SKIP_EXT)

/-- An archive: entry names with their (raw, as-restored) byte contents. -/
abbrev Archive := List (String × List Nat)

/-- The persisted metadata mapping of unit name to digest. -/
abbrev Metadata := List (String × List Nat)

/-- `metadata.get(name)`. -/
def mdLookup (md : Metadata) (k : String) : Option (List Nat) :=
  match md with
  | [] => none
  | (k', v) :: rest => if k' = k then some v else mdLookup rest k

/-- `metadata[name] = digest` (Python dict update: an existing key keeps its
position, a new key is appended). -/
def mdInsert (md : Metadata) (k : String) (v : List Nat) : Metadata :=
  match md with
  | [] => [(k, v)]
  | (k', v') :: rest => if k' = k then (k, v) :: rest else (k', v') :: mdInsert rest k v

/-- `utils.load_metadata`.  The metadata file on disk is modelled as
`none` (file absent) or `some p` where `p` is the result of `json.load`:
`some m` if the file parses to the mapping `m`, `none` if `json.load`
raises `JSONDecodeError`.  The source returns the parsed mapping when the
file exists, propagates the parse exception (`Except.error`), and returns
the empty mapping when the file does not exist. -/
def load_metadata : Option (Option Metadata) → Except Unit Metadata
  | some (some m) => .ok m
  | some none => .error ()
  | none => .ok []

/-- Result of one `BACKUP.functions.backup_folder` run over the top-level
items of the backup root: final metadata (each unit's entry is saved right
after that unit completes), units fully archived this run (a `{name}.zip`
completed by `zip_compression`), units reported up to date, units skipped
with the "is empty" notice, and whether an uncaught exception aborted the
run before the remaining items were processed. -/
structure FolderRun where
  metadata : Metadata
  compressed : List String
  upToDate : List String
  empties : List String
  aborted : Bool

/-- Whether `BACKUP.functions.zip_compression` (lines 140-188) completes for
a unit: it re-walks the folder and calls `zipf.write(fpath, arcname)` on
every file — including files whose read raises — with no `try`/`except`
anywhere on that path, so it completes exactly when every file below the
unit is readable. -/
def zip_compression_ok (es : FSList) : Bool :=
  (walkDir "" es).all fun p => p.2.isSome

/-- `BACKUP.functions.backup_folder`, lines 111-132: iterate the top-level
items; an item with no directory entries (`not any(item.iterdir())`) is
skipped with a notice; otherwise its folder hash is computed (worker
completion order `sched name`) and compared with the stored metadata digest;
on a match the item is reported up to date; otherwise `zip_compression`
runs, and only if it completes is the metadata entry updated and saved and
the next item processed — `zip_compression` re-reads every file of the
unit, so an unreadable file raises an uncaught exception that aborts the
whole run before the unit's metadata update (entries saved for earlier
units persist).  Top-level items are directories (the source raises
`NotADirectoryError` on a top-level file, which no claim covers). -/
def backup_folder (items : List (String × FSList)) (sched : String → List Nat)
    (md : Metadata) : FolderRun :=
  match items with
  | [] => ⟨md, [], [], [], false⟩
  | (n, .nil) :: rest =>
      let r := backup_folder rest sched md
      ⟨r.metadata, r.compressed, r.upToDate, n :: r.empties, r.aborted⟩
  | (n, .cons e es) :: rest =>
      let h := get_folder_hash (.cons e es) (sched n)
      if mdLookup md n = some h then
        let r := backup_folder rest sched md
        ⟨r.metadata, r.compressed, n :: r.upToDate, r.empties, r.aborted⟩
      else
        if zip_compression_ok (.cons e es) then
          let r := backup_folder rest sched (mdInsert md n h)
          ⟨r.metadata, n :: r.compressed, r.upToDate, r.empties, r.aborted⟩
        else ⟨md, [], [], [], true⟩

/-- `multi_thread.process_file`: hash the file, then classify by the
lower-cased extension against the skip-set; a compressible file returns its
path in the third component (for later zipping), a skipped file returns
`none` (marked for verbatim copy). -/
def process_file (path : String) (content : List Nat) :
    String × List Nat × Option String :=
  let file_hash := get_file_hash content
  if ! hasSkipExt path then (path, file_hash, some path)
  else (path, file_hash, none)

/-- Injective byte encoding of a name (used for container payloads). -/
def encodeName (s : String) : List Nat := s.data.map Char.toNat

/-- Injective byte encoding of an archive or mapping as one payload (the
model of the serialized `.zip` container / JSON file placed inside the outer
store archive). -/
def encodeArchive (a : Archive) : List Nat :=
  a.foldr (fun e acc =>
    e.1.length :: encodeName e.1 ++ e.2.length :: e.2 ++ acc) []

/-- Result of the folder branch of `main.backup`: the outer store container
(written with `ZIP_STORED`, so each entry's bytes inside the archive are the
raw file bytes), the inner compressed container's entries, and the per-file
hash mapping. -/
structure MainRun where
  finalEntries : List (String × List Nat)
  compressedContainer : Archive
  hashes : Metadata

/-- Folder branch of `main.backup`, lines 60-145: every source file is
hashed; a file whose lower-cased suffix is not in `SKIP_EXT` is deflated
into the temporary `{source}_compressed.zip`, otherwise it is copied
byte-for-byte (`shutil.copy2`) into the temp tree at its source-relative
path.  The hash mapping is saved under `metadata/{source}_metadata.json` in
the temp tree.  A second pass stores the whole temp tree into the final
`ZIP_STORED` container, so each final entry's archived bytes equal the bytes
of the temp file.  `files` is the `rglob` file list (path relative to the
source root, content). -/
def mainBackupFolder (sourceName : String) (files : List (String × List Nat)) :
    MainRun :=
  let verbatim := files.filter fun f => hasSkipExt f.1
  let container := files.filter fun f => ! hasSkipExt f.1
  let hashes := files.map fun f => (f.1, get_file_hash f.2)
  ⟨(sourceName ++ "_compressed.zip", encodeArchive container)
      :: ("metadata/" ++ sourceName ++ "_metadata.json", encodeArchive hashes)
      :: verbatim,
    container, hashes⟩

/-- Write archive entries one by one until the first unreadable file raises:
returns the entries written and whether the writer completed. -/
def writeUntilFail : List (String × Option (List Nat)) → Archive × Bool
  | [] => ([], true)
  | (n, some c) :: rest =>
      let r := writeUntilFail rest
      ((n, c) :: r.1, r.2)
  | (_, none) :: _ => ([], false)

/-- `utils.compress_subfolder`: archive every non-skip file below the
subfolder under the arcname `file.relative_to(subfolder.parent)` (that is,
prefixed with the subfolder's own name).  If any included file is unreadable
the worker raises, so no archive path is returned to the orchestrator
(`none`); skip-extension files are never opened and never archived. -/
def compress_subfolder (name : String) (es : FSList) : Option Archive :=
  let included := (walkDir (name ++ "/") es).filter fun p => ! hasSkipExt p.1
  let w := writeUntilFail included
  if w.2 then some w.1 else none

/-- Extracting one archive entry onto the scratch directory: an entry with
an already-present path overwrites it, otherwise it is created. -/
def insertReplace (acc : Archive) (e : String × List Nat) : Archive :=
  if acc.any (fun x => decide (x.1 = e.1)) then
    acc.map fun x => if x.1 = e.1 then e else x
  else acc ++ [e]

/-- `extractall` of one archive onto the scratch directory. -/
def extractArchive (acc : Archive) : Archive → Archive
  | [] => acc
  | e :: rest => extractArchive (insertReplace acc e) rest

/-- Sequential extraction of all temporary archives into one scratch
directory. -/
def extractAll (acc : Archive) : List Archive → Archive
  | [] => acc
  | arc :: rest => extractAll (extractArchive acc arc) rest

/-- Fault model for one `merge_archives` run: `extractFail = some i` means
extracting the `i`-th temporary archive raises; `repackFail = some k` means
the repack pass raises after writing `k` entries of the scratch tree. -/
structure MergeFault where
  extractFail : Option Nat
  repackFail : Option Nat

/-- The repack phase of `utils.merge_archives`: `SevenZipFile(output, 'w')`
truncates the output path on open, then `writeall` packs the scratch tree;
a raise mid-pack leaves the truncated partial archive on disk. -/
def mergeRepack (scratch : Archive) (repackFail : Option Nat) :
    Option Archive × Bool :=
  match repackFail with
  | some k => if k < scratch.length then (some (scratch.take k), false) else (some scratch, true)
  | none => (some scratch, true)

/-- `utils.merge_archives`: extract every temporary archive into a scratch
directory, then repack the scratch tree into the output path.  Returns the
final state of the output path (`prior` is whatever archive was there
before) and whether the merge completed.  Extraction happens before the
output is opened, so an extraction failure leaves the prior archive; the
repack phase opens the output for writing first. -/
def merge_archives (prior : Option Archive) (temps : List Archive)
    (fault : MergeFault) : Option Archive × Bool :=
  match fault.extractFail with
  | some i =>
      if i < temps.length then (prior, false)
      else mergeRepack (extractAll [] temps) fault.repackFail
  | none => mergeRepack (extractAll [] temps) fault.repackFail

/-- The temporary archives collected from the workers that succeeded
(`temp_archives` in `utils.parallel_compress`; a worker whose future raised
contributes nothing).  The source collects them in completion order; the
model keeps listing order, which only affects extraction precedence between
identically named entries, and the theorems that depend on entry placement
assume globally distinct entry names. -/
def successArchives (subs : List (String × FSList)) : List Archive :=
  subs.filterMap fun p => compress_subfolder p.1 p.2

/-- Result of one `utils.parallel_compress` run: final state of the output
path, whether the run completed, the subfolders whose worker raised (each
reported with an error message), and the metadata writes performed by the
function (the source never touches the metadata store here, so this is
always empty). -/
structure ParallelRun where
  output : Option Archive
  completed : Bool
  failures : List String
  metadataWrites : Metadata

/-- The subfolder phase of `utils.parallel_compress`: each subfolder is
compressed by a worker into its own temporary archive; a worker's exception
is caught and its subfolder reported while the loop continues; finally the
successful temporary archives are merged into the output. -/
def runSubfolderPhase (prior : Option Archive) (fault : MergeFault)
    (subs : List (String × FSList)) : ParallelRun :=
  let results := subs.map fun p => (p.1, compress_subfolder p.1 p.2)
  let fails := results.filterMap fun r =>
    match r.2 with
    | none => some r.1
    | some _ => none
  let m := merge_archives prior (successArchives subs) fault
  ⟨m.1, m.2, fails, []⟩

/-- `utils.parallel_compress`, lines 162-218: with no subfolders the folder
itself is archived directly into the output (opened for writing; an
unreadable file raises and leaves a partial archive).  Otherwise the
subfolder split-and-merge phase runs. -/
def parallel_compress (folderName : String) (es : FSList) (prior : Option Archive)
    (fault : MergeFault) : ParallelRun :=
  match childDirs es with
  | [] =>
      let included := (walkDir (folderName ++ "/") es).filter fun p => ! hasSkipExt p.1
      let w := writeUntilFail included
      ⟨some w.1, w.2, [], []⟩
  | sub :: subs => runSubfolderPhase prior fault (sub :: subs)

/-- The two-file folder used to exhibit the completion-order dependence of
the combined digest. -/
def c1Tree : FSList := .ofList [.file "a" (some [0]), .file "b" (some [1])]

/-- Looking up a key other than the inserted one is unchanged by a
dictionary update. -/
theorem mdLookup_mdInsert_ne (md : Metadata) (k n : String) (v : List Nat)
    (h : k ≠ n) : mdLookup (mdInsert md k v) n = mdLookup md n := by
  induction md with
  | nil => simp [mdInsert, mdLookup, h]
  | cons e rest ih =>
      obtain ⟨k', v'⟩ := e
      by_cases hk : k' = k
      · subst hk
        simp [mdInsert, mdLookup, h]
      · simp [mdInsert, mdLookup, hk, ih]

/-- Folding over an empty dispatch list feeds nothing to the hasher. -/
theorem foldStream_nil (order : List Nat) : foldStream [] order = [] := by
  induction order with
  | nil => rfl
  | cons i rest ih =>
      simp only [foldStream, List.filterMap_cons] at ih ⊢
      simp [ih]

end Dryass

namespace Dryass

/-- C1.  The claim states that `get_folder_hash` folds the per-file digests
in lexicographically sorted file-path order regardless of worker completion
order, so the combined digest is deterministic.  The code sorts only the
dispatch list; the fold consumes `as_completed` results in completion order,
so two valid completion schedules of the same two-file tree produce
different combined digests. -/
theorem c1_fold_order_bug :
    [0, 1].Perm (List.range 2) ∧ [1, 0].Perm (List.range 2) ∧
    (sortedFiles c1Tree).length = 2 ∧
    get_folder_hash c1Tree [0, 1] ≠ get_folder_hash c1Tree [1, 0] := by
  refine ⟨by decide, by decide, by decide, by decide⟩

/-- The single-item source tree used for the idempotence check: one
subfolder `u` with two readable files. -/
def c2Items : List (String × FSList) :=
  [("u", .ofList [.file "a" (some [0]), .file "b" (some [1])])]

/-- C2.  The claim states that an immediate second `backup_folder` run over
an unchanged source performs zero compression work and leaves the metadata
record unchanged.  Because the folder digest depends on worker completion
order (C1), a second run whose hash workers complete in the other order
recomputes a different digest, recompresses the unit, and rewrites the
metadata record. -/
theorem c2_idempotence_bug :
    ((backup_folder c2Items (fun _ => [1, 0])
        (backup_folder c2Items (fun _ => [0, 1]) []).metadata).compressed ≠ [] ∧
     (backup_folder c2Items (fun _ => [1, 0])
        (backup_folder c2Items (fun _ => [0, 1]) []).metadata).metadata
       ≠ (backup_folder c2Items (fun _ => [0, 1]) []).metadata ∧
     [1, 0].Perm (List.range 2)) := by
  refine ⟨by decide, by decide, by decide⟩

/-- C3 counterexample.  The claim states that any failure of the merge step
leaves the previously existing archive at the output path intact.  A repack
failure after zero entries (the output is opened for writing, hence
truncated, before repacking) replaces the prior archive with an empty
partial one. -/
theorem c3_counterexample :
    (merge_archives (some [("old", [1])]) [[("a", [0])]] ⟨none, some 0⟩).2 = false ∧
    (merge_archives (some [("old", [1])]) [[("a", [0])]] ⟨none, some 0⟩).1
      ≠ some [("old", [1])] := by
  refine ⟨by decide, by decide⟩

/-- C3 amended.  If the merge step fails during the extraction phase —
before the output archive is opened for repacking — the previously existing
archive at the output path is left intact with its prior contents. -/
theorem c3_extract_fail_preserves_prior (prior : Option Archive)
    (temps : List Archive) (i : Nat) (repackFail : Option Nat)
    (h : i < temps.length) :
    merge_archives prior temps ⟨some i, repackFail⟩ = (prior, false) := by
  simp [merge_archives, h]

/-- Witness for C3's amended theorem at a concrete merge run. -/
theorem c3_extract_fail_witness :
    0 < [[("a", [0])]].length ∧
    merge_archives (some [("old", [1])]) [[("a", [0])]] ⟨some 0, none⟩
      = (some [("old", [1])], false) :=
  ⟨by decide, c3_extract_fail_preserves_prior (some [("old", [1])]) [[("a", [0])]] 0 none
    (by decide)⟩

/-- C7 counterexample.  The claim states `load_metadata` never raises and
treats an unparseable metadata file as empty metadata; on a file that exists
but does not parse, `json.load`'s exception propagates. -/
theorem c7_counterexample :
    load_metadata (some none) = Except.error () ∧
    load_metadata (some none) ≠ Except.ok ([] : Metadata) := by
  exact ⟨rfl, fun h => Except.noConfusion h⟩

/-- C7 amended.  `load_metadata` returns the empty mapping when the metadata
file does not exist and the parsed mapping when it exists and parses, but
raises (propagates `json.JSONDecodeError`) when the file exists and is
unparseable. -/
theorem c7_load_metadata_spec (m : Metadata) :
    load_metadata none = Except.ok ([] : Metadata) ∧
    load_metadata (some (some m)) = Except.ok m ∧
    load_metadata (some none) = Except.error () :=
  ⟨rfl, rfl, rfl⟩

/-- C10.  `get_folder_hash` over a directory tree containing zero files
never enters the hashing loop and returns the fixed digest of hashing zero
input bytes, so any two file-less trees yield the same constant digest under
any worker schedules. -/
theorem c10_empty_tree_digest (t₁ t₂ : FSList) (o₁ o₂ : List Nat)
    (h₁ : walkDir "" t₁ = []) (h₂ : walkDir "" t₂ = []) :
    get_folder_hash t₁ o₁ = blake3Digest [] ∧
    get_folder_hash t₁ o₁ = get_folder_hash t₂ o₂ := by
  have e₁ : sortedFiles t₁ = [] := by simp [sortedFiles, h₁, sortBy]
  have e₂ : sortedFiles t₂ = [] := by simp [sortedFiles, h₂, sortBy]
  constructor
  · simp [get_folder_hash, e₁, foldStream_nil]
  · simp [get_folder_hash, e₁, e₂, foldStream_nil]

/-- Witness for C10 at two concrete file-less trees (the empty directory and
a directory containing only an empty subdirectory). -/
theorem c10_empty_tree_witness :
    walkDir "" FSList.nil = [] ∧
    walkDir "" (FSList.ofList [.dir "sub" .nil]) = [] ∧
    (get_folder_hash FSList.nil [] = blake3Digest [] ∧
     get_folder_hash FSList.nil []
       = get_folder_hash (FSList.ofList [.dir "sub" .nil]) [0]) :=
  ⟨rfl, rfl, c10_empty_tree_digest FSList.nil (FSList.ofList [.dir "sub" .nil]) [] [0] rfl rfl⟩

/-- C6 counterexample.  The claim states that a unit whose fingerprinting
hits an I/O error is marked failed while the pipeline continues with the
remaining units.  In the code the per-file `except` branch of
`get_folder_hash` merely prints and continues, so the unit proceeds to
`zip_compression`, which re-reads the unreadable file; the uncaught
exception aborts the entire run: the remaining unit `v` reaches no outcome,
and no unit is marked anything. -/
theorem c6_counterexample :
    (backup_folder [("u", .ofList [.file "a" (some [0]), .file "b" none]),
        ("v", .ofList [.file "c" (some [2])])] (fun _ => [0, 1]) []).aborted = true ∧
    (backup_folder [("u", .ofList [.file "a" (some [0]), .file "b" none]),
        ("v", .ofList [.file "c" (some [2])])] (fun _ => [0, 1]) []).compressed = [] ∧
    (backup_folder [("u", .ofList [.file "a" (some [0]), .file "b" none]),
        ("v", .ofList [.file "c" (some [2])])] (fun _ => [0, 1]) []).upToDate = [] ∧
    (backup_folder [("u", .ofList [.file "a" (some [0]), .file "b" none]),
        ("v", .ofList [.file "c" (some [2])])] (fun _ => [0, 1]) []).empties = [] ∧
    (backup_folder [("u", .ofList [.file "a" (some [0]), .file "b" none]),
        ("v", .ofList [.file "c" (some [2])])] (fun _ => [0, 1]) []).metadata = [] := by
  refine ⟨by decide, by decide, by decide, by decide, by decide⟩

/-- C6 amended.  A unit whose fingerprinting hits a per-file I/O error is
never marked failed and never gets a metadata entry, but the pipeline does
not continue either: `get_folder_hash` swallows the error and returns a
digest folded over only the successfully hashed files; if that partial
digest differs from the stored one, `zip_compression` re-reads the
unreadable file and the uncaught exception aborts the whole run before the
unit's metadata update, leaving the remaining units unprocessed; only if
the partial digest happens to match the stored entry is the unit reported
up to date and the run continued. -/
theorem c6_hash_error_aborts_run (n : String) (e : FSEntry) (es' : FSList)
    (rest : List (String × FSList)) (sched : String → List Nat) (md : Metadata)
    (hunread : ∃ p ∈ walkDir "" (FSList.cons e es'), p.2 = none) :
    (mdLookup md n ≠ some (get_folder_hash (FSList.cons e es') (sched n)) →
      backup_folder ((n, FSList.cons e es') :: rest) sched md
        = ⟨md, [], [], [], true⟩) ∧
    (mdLookup md n = some (get_folder_hash (FSList.cons e es') (sched n)) →
      n ∈ (backup_folder ((n, FSList.cons e es') :: rest) sched md).upToDate) := by
  have hzip : zip_compression_ok (FSList.cons e es') = false := by
    rcases hunread with ⟨p, hp, hnone⟩
    cases hall : zip_compression_ok (FSList.cons e es') with
    | false => rfl
    | true =>
        have := List.all_eq_true.mp hall p hp
        rw [hnone] at this
        cases this
  constructor
  · intro hmiss
    simp [backup_folder, hmiss, hzip]
  · intro hmd
    simp only [backup_folder, hmd, if_pos]
    exact List.mem_cons_self _ _

/-- Witness for C6's amended theorem: a concrete unit with one unreadable
file aborts the run with the loaded metadata untouched, while the same unit
against stale metadata that already holds the partial digest is reported up
to date. -/
theorem c6_abort_witness :
    (∃ p ∈ walkDir "" (FSList.ofList [.file "a" (some [0]), .file "b" none]),
      p.2 = none) ∧
    backup_folder [("u", .ofList [.file "a" (some [0]), .file "b" none]),
        ("v", .ofList [.file "c" (some [2])])] (fun _ => [0, 1]) []
      = ⟨[], [], [], [], true⟩ ∧
    "u" ∈ (backup_folder [("u", .ofList [.file "a" (some [0]), .file "b" none])]
        (fun _ => [0, 1]) [("u", blake3Digest (get_file_hash [0]))]).upToDate :=
  ⟨by decide,
   (c6_hash_error_aborts_run "u" (.file "a" (some [0])) (.ofList [.file "b" none])
      [("v", .ofList [.file "c" (some [2])])] (fun _ => [0, 1]) [] (by decide)).1
     (by decide),
   (c6_hash_error_aborts_run "u" (.file "a" (some [0])) (.ofList [.file "b" none])
      [] (fun _ => [0, 1]) [("u", blake3Digest (get_file_hash [0]))] (by decide)).2
     (by decide)⟩

/-- C9 counterexample.  The claim states that a top-level subfolder
containing no files is skipped entirely.  A subfolder whose only entry is an
empty subdirectory contains no files, yet `backup_folder` (which tests
`any(item.iterdir())`, i.e. directory entries, not files) processes it: a
digest over zero inputs is computed and recorded, an archive is produced,
and no skip notice is emitted. -/
theorem c9_counterexample :
    (backup_folder [("s", .ofList [.dir "d" .nil])] (fun _ => [0]) []).compressed
      = ["s"] ∧
    (backup_folder [("s", .ofList [.dir "d" .nil])] (fun _ => [0]) []).empties = [] ∧
    mdLookup (backup_folder [("s", .ofList [.dir "d" .nil])] (fun _ => [0]) []).metadata "s"
      = some (blake3Digest []) := by
  refine ⟨by decide, by decide, by decide⟩

/-- A unit all of whose occurrences in the item list are entry-less
directories is never archived, never reported up to date, and its metadata
entry is untouched — whether or not a later unit aborts the run. -/
theorem backup_untouched (items : List (String × FSList)) (sched : String → List Nat)
    (md : Metadata) (n : String)
    (h : ∀ es, (n, es) ∈ items → es = FSList.nil) :
    n ∉ (backup_folder items sched md).compressed ∧
    n ∉ (backup_folder items sched md).upToDate ∧
    mdLookup (backup_folder items sched md).metadata n = mdLookup md n := by
  induction items generalizing md with
  | nil => simp [backup_folder]
  | cons hd rest ih =>
      obtain ⟨m, es⟩ := hd
      have h' : ∀ es, (n, es) ∈ rest → es = FSList.nil :=
        fun es hm => h es (List.mem_cons_of_mem _ hm)
      cases es with
      | nil =>
          simpa only [backup_folder] using ih md h'
      | cons e es' =>
          have hmn : m ≠ n := by
            intro hq
            subst hq
            exact FSList.noConfusion (h (.cons e es') (List.mem_cons_self _ _))
          by_cases hmd : mdLookup md m = some (get_folder_hash (.cons e es') (sched m))
          · have hr := ih md h'
            simp only [backup_folder, hmd, if_pos]
            refine ⟨hr.1, ?_, hr.2.2⟩
            simp only [List.mem_cons, not_or]
            exact ⟨fun hq => hmn hq.symm, hr.2.1⟩
          · by_cases hzip : zip_compression_ok (.cons e es') = true
            · have hr := ih (mdInsert md m (get_folder_hash (.cons e es') (sched m))) h'
              simp only [backup_folder, hmd, if_neg, not_false_iff, hzip, if_pos]
              refine ⟨?_, hr.2.1, ?_⟩
              · simp only [List.mem_cons, not_or]
                exact ⟨fun hq => hmn hq.symm, hr.1⟩
              · rw [hr.2.2, mdLookup_mdInsert_ne md m n _ hmn]
            · simp only [backup_folder, hmd, if_neg, not_false_iff, hzip]
              exact ⟨List.not_mem_nil n, List.not_mem_nil n, rfl⟩

/-- A unit that appears in the item list as an entry-less directory receives
the "is empty" notice, provided no unit aborts the run (an uncaught
compression exception in an earlier unit stops the loop before later items
are reached). -/
theorem backup_empty_notice (items : List (String × FSList)) (sched : String → List Nat)
    (md : Metadata) (n : String) (h : (n, FSList.nil) ∈ items)
    (habort : (backup_folder items sched md).aborted = false) :
    n ∈ (backup_folder items sched md).empties := by
  induction items generalizing md with
  | nil => cases h
  | cons hd rest ih =>
      obtain ⟨m, es⟩ := hd
      rcases List.mem_cons.mp h with heq | hmem
      · cases heq
        simp only [backup_folder]
        exact List.mem_cons_self _ _
      · cases es with
        | nil =>
            exact List.mem_cons_of_mem _
              (ih md hmem (by simpa only [backup_folder] using habort))
        | cons e es' =>
            by_cases hmd : mdLookup md m = some (get_folder_hash (.cons e es') (sched m))
            · simpa only [backup_folder, hmd, if_pos] using
                ih md hmem (by simpa only [backup_folder, hmd, if_pos] using habort)
            · by_cases hzip : zip_compression_ok (.cons e es') = true
              · have habort' := habort
                simp only [backup_folder, hmd, if_neg, not_false_iff, hzip,
                  if_pos] at habort' ⊢
                exact ih _ hmem habort'
              · exfalso
                have habort' := habort
                simp only [backup_folder, hmd, if_neg, not_false_iff, hzip] at habort'
                cases habort'

/-- C9 amended.  A top-level entry with no directory entries at all (an
empty directory) is skipped entirely by `backup_folder`: in a run that no
unit aborts, the "is empty" notice is emitted; and unconditionally no
archive is produced for it, it is not reported up to date, and its metadata
entry is untouched.  (A subfolder that merely contains no files but has
subdirectory entries is processed normally, per the counterexample.) -/
theorem c9_empty_dir_skipped (items : List (String × FSList)) (sched : String → List Nat)
    (md : Metadata) (n : String)
    (h1 : (n, FSList.nil) ∈ items)
    (h2 : ∀ es, (n, es) ∈ items → es = FSList.nil)
    (habort : (backup_folder items sched md).aborted = false) :
    n ∈ (backup_folder items sched md).empties ∧
    n ∉ (backup_folder items sched md).compressed ∧
    n ∉ (backup_folder items sched md).upToDate ∧
    mdLookup (backup_folder items sched md).metadata n = mdLookup md n := by
  have hu := backup_untouched items sched md n h2
  exact ⟨backup_empty_notice items sched md n h1 habort, hu.1, hu.2.1, hu.2.2⟩

/-- Witness for C9's amended theorem on a one-item run over an empty
top-level directory. -/
theorem c9_empty_dir_witness :
    "s" ∈ (backup_folder [("s", FSList.nil)] (fun _ => []) []).empties ∧
    "s" ∉ (backup_folder [("s", FSList.nil)] (fun _ => []) []).compressed ∧
    "s" ∉ (backup_folder [("s", FSList.nil)] (fun _ => []) []).upToDate ∧
    mdLookup (backup_folder [("s", FSList.nil)] (fun _ => []) []).metadata "s"
      = mdLookup [] "s" :=
  c9_empty_dir_skipped [("s", FSList.nil)] (fun _ => []) [] "s"
    (List.mem_singleton.mpr rfl)
    (by
      intro es hm
      have hq := List.mem_singleton.mp hm
      injection hq with hq1 hq2)
    (by decide)

/-- C8.  `multi_thread.process_file` classifies a file by looking up its
lower-cased extension in the skip-set: a skipped file is routed to the copy
(verbatim) bucket (`none` in the third component), a non-match is routed to
the compress bucket; classification is therefore case-insensitive in the
extension, and a file with no extension is compressible. -/
theorem c8_classification (p q : String) (c d : List Nat) :
    (((process_file p c).2.2 = none) ↔ lowerStr (pySuffix p) ∈ SKIP_EXT) ∧
    (lowerStr (pySuffix p) = lowerStr (pySuffix q) →
      (((process_file p c).2.2 = none) ↔ ((process_file q d).2.2 = none))) ∧
    (pySuffix p = "" → (process_file p c).2.2 = some p) := by
  have key : ∀ (r : String) (e : List Nat),
      ((process_file r e).2.2 = none) ↔ lowerStr (pySuffix r) ∈ SKIP_EXT := by
    intro r e
    by_cases h : lowerStr (pySuffix r) ∈ SKIP_EXT
    · simp [process_file, hasSkipExt, h]
    · simp [process_file, hasSkipExt, h]
  refine ⟨key p c, ?_, ?_⟩
  · intro h
    rw [key p c, key q d, h]
  · intro h
    have hnot : lowerStr (pySuffix p) ∉ SKIP_EXT := by
      rw [h]
      decide
    simp [process_file, hasSkipExt, hnot]

/-- Witness for C8: `movie.MP4` and `movie.mp4` are classified identically,
and both land in the verbatim bucket. -/
theorem c8_classification_witness :
    lowerStr (pySuffix "movie.MP4") = lowerStr (pySuffix "movie.mp4") ∧
    (((process_file "movie.MP4" [0]).2.2 = none)
      ↔ ((process_file "movie.mp4" [0]).2.2 = none)) ∧
    (process_file "movie.MP4" [0]).2.2 = none :=
  ⟨by decide,
   (c8_classification "movie.MP4" "movie.mp4" [0] [0]).2.1 (by decide),
   (c8_classification "movie.MP4" "movie.mp4" [0] [0]).1.mpr (by decide)⟩

/-- C5.  In the folder branch of `main.backup`, every file routed to the
verbatim (skip-extension) bucket is copied byte-for-byte into the temp tree
and then stored (uncompressed, `ZIP_STORED`) in the final archive: the pair
(relative path, content bytes) appears unchanged among the final container's
entries, and the file is not placed in the compressed container. -/
theorem c5_verbatim_roundtrip (src : String) (files : List (String × List Nat))
    (f : String × List Nat) (hf : f ∈ files) (hskip : hasSkipExt f.1 = true) :
    f ∈ (mainBackupFolder src files).finalEntries ∧
    f ∉ (mainBackupFolder src files).compressedContainer := by
  constructor
  · exact List.mem_cons_of_mem _
      (List.mem_cons_of_mem _ (List.mem_filter.mpr ⟨hf, hskip⟩))
  · intro hmem
    have hq := (List.mem_filter.mp hmem).2
    simp [hskip] at hq

/-- Witness for C5 at a concrete two-file source with one verbatim file. -/
theorem c5_verbatim_witness :
    ("movie.mp4", [9]) ∈ [("movie.mp4", [9]), ("a.txt", [1])] ∧
    hasSkipExt "movie.mp4" = true ∧
    (("movie.mp4", [9])
        ∈ (mainBackupFolder "game" [("movie.mp4", [9]), ("a.txt", [1])]).finalEntries ∧
     ("movie.mp4", [9])
        ∉ (mainBackupFolder "game" [("movie.mp4", [9]), ("a.txt", [1])]).compressedContainer) :=
  ⟨by decide, by decide,
   c5_verbatim_roundtrip "game" [("movie.mp4", [9]), ("a.txt", [1])] ("movie.mp4", [9])
     (by decide) (by decide)⟩

/-- Extracting an entry whose path is not yet on the scratch directory
appends it. -/
theorem insertReplace_of_not_mem (acc : Archive) (e : String × List Nat)
    (h : e.1 ∉ acc.map Prod.fst) : insertReplace acc e = acc ++ [e] := by
  unfold insertReplace
  rw [if_neg]
  intro hc
  rcases List.any_eq_true.mp hc with ⟨x, hx, hd⟩
  exact h (List.mem_map.mpr ⟨x, hx, of_decide_eq_true hd⟩)

/-- With pairwise-distinct entry paths, extracting one archive onto the
scratch directory appends its entries. -/
theorem extractArchive_of_nodup (arc : Archive) :
    ∀ acc : Archive, ((acc ++ arc).map Prod.fst).Nodup →
      extractArchive acc arc = acc ++ arc := by
  induction arc with
  | nil =>
      intro acc h
      simp [extractArchive]
  | cons e rest ih =>
      intro acc h
      have hnotin : e.1 ∉ acc.map Prod.fst := by
        have h' := h
        rw [List.map_append] at h'
        rcases List.nodup_append.mp h' with ⟨_, _, hdisj⟩
        intro hmem
        exact hdisj hmem (by simp)
      have hstep : extractArchive acc (e :: rest) = extractArchive (acc ++ [e]) rest := by
        rw [extractArchive, insertReplace_of_not_mem acc e hnotin]
      rw [hstep, ih (acc ++ [e]) (by rwa [List.append_cons] at h)]
      simp

/-- With globally distinct entry paths, sequential extraction of all
temporary archives lays out exactly their concatenated entries. -/
theorem extractAll_of_nodup (temps : List Archive) :
    ∀ acc : Archive, ((acc ++ temps.flatten).map Prod.fst).Nodup →
      extractAll acc temps = acc ++ temps.flatten := by
  induction temps with
  | nil =>
      intro acc h
      simp [extractAll]
  | cons arc rest ih =>
      intro acc h
      have hsub : ((acc ++ arc).map Prod.fst).Nodup := by
        refine List.Nodup.sublist (List.Sublist.map _ ?_) h
        rw [List.flatten_cons, ← List.append_assoc]
        exact List.sublist_append_left _ _
      have hstep : extractAll acc (arc :: rest) = extractAll (acc ++ arc) rest := by
        rw [extractAll, extractArchive_of_nodup arc acc hsub]
      rw [hstep, ih (acc ++ arc) (by rwa [List.flatten_cons, ← List.append_assoc] at h)]
      rw [List.flatten_cons, List.append_assoc]

/-- On a directory that has subfolders, `parallel_compress` runs the
split-and-merge phase over them. -/
theorem parallel_compress_eq (folderName : String) (es : FSList)
    (prior : Option Archive) (fault : MergeFault) (h : childDirs es ≠ []) :
    parallel_compress folderName es prior fault
      = runSubfolderPhase prior fault (childDirs es) := by
  unfold parallel_compress
  cases hcd : childDirs es with
  | nil => exact absurd hcd h
  | cons sub subs => rfl

/-- C4.  In a `parallel_compress` run where some subfolder's worker raises,
that failure is reported and the remaining subfolders continue: the run
completes (with a fault-free merge), every successfully compressed
subfolder's entries are all present in the final merged archive (assuming
globally distinct entry paths, which distinct subfolder names guarantee),
and the function performs no metadata writes at all — in particular none
for the failed subfolder, so it is retried on the next run. -/
theorem c4_partial_failure_isolated (folderName : String) (es : FSList)
    (prior : Option Archive) (n : String) (cs : FSList)
    (hmem : (n, cs) ∈ childDirs es) :
    (compress_subfolder n cs = none →
       n ∈ (parallel_compress folderName es prior ⟨none, none⟩).failures) ∧
    (∀ arc entry, compress_subfolder n cs = some arc → entry ∈ arc →
       ((successArchives (childDirs es)).flatten.map Prod.fst).Nodup →
       (parallel_compress folderName es prior ⟨none, none⟩).output
           = some (extractAll [] (successArchives (childDirs es))) ∧
       entry ∈ extractAll [] (successArchives (childDirs es))) ∧
    (parallel_compress folderName es prior ⟨none, none⟩).completed = true ∧
    (parallel_compress folderName es prior ⟨none, none⟩).metadataWrites = [] := by
  have hne : childDirs es ≠ [] := by
    intro hq
    rw [hq] at hmem
    cases hmem
  rw [parallel_compress_eq folderName es prior ⟨none, none⟩ hne]
  refine ⟨?_, ?_, ?_, ?_⟩
  · intro hnone
    simp only [runSubfolderPhase]
    refine List.mem_filterMap.mpr ⟨(n, compress_subfolder n cs), ?_, ?_⟩
    · exact List.mem_map.mpr ⟨(n, cs), hmem, rfl⟩
    · rw [hnone]
  · intro arc entry hsome hentry hnodup
    have harc : arc ∈ successArchives (childDirs es) :=
      List.mem_filterMap.mpr ⟨(n, cs), hmem, by rw [hsome]⟩
    have hout : extractAll [] (successArchives (childDirs es))
        = (successArchives (childDirs es)).flatten := by
      have := extractAll_of_nodup (successArchives (childDirs es)) []
        (by simpa using hnodup)
      simpa using this
    constructor
    · simp only [runSubfolderPhase, merge_archives, mergeRepack]
    · rw [hout]
      exact List.mem_flatten.mpr ⟨arc, harc, hentry⟩
  · simp only [runSubfolderPhase, merge_archives, mergeRepack]
  · simp only [runSubfolderPhase]

/-- Subfolder of the C4 witness whose worker succeeds. -/
def c4Good : FSList := .ofList [.file "x.txt" (some [3])]

/-- Subfolder of the C4 witness whose worker raises on an unreadable file. -/
def c4Bad : FSList := .ofList [.file "y.txt" none]

/-- Backup root of the C4 witness: one good and one failing subfolder. -/
def c4Tree : FSList := .ofList [.dir "good" c4Good, .dir "bad" c4Bad]

/-- Witness for C4 at a concrete run: the failing subfolder is reported, the
good subfolder's entry reaches the merged output, the run completes, and no
metadata is written. -/
theorem c4_partial_failure_witness :
    "bad" ∈ (parallel_compress "f" c4Tree none ⟨none, none⟩).failures ∧
    ("good/x.txt", [3]) ∈ extractAll [] (successArchives (childDirs c4Tree)) ∧
    (parallel_compress "f" c4Tree none ⟨none, none⟩).completed = true ∧
    (parallel_compress "f" c4Tree none ⟨none, none⟩).metadataWrites = [] := by
  have hmemBad : ("bad", c4Bad) ∈ childDirs c4Tree :=
    List.mem_cons_of_mem _ (List.mem_cons_self _ _)
  have hmemGood : ("good", c4Good) ∈ childDirs c4Tree := List.mem_cons_self _ _
  have hbad := c4_partial_failure_isolated "f" c4Tree none "bad" c4Bad hmemBad
  have hgood := c4_partial_failure_isolated "f" c4Tree none "good" c4Good hmemGood
  refine ⟨hbad.1 rfl, ?_, hbad.2.2.1, hbad.2.2.2⟩
  exact (hgood.2.1 [("good/x.txt", [3])] ("good/x.txt", [3]) rfl (by decide) (by decide)).2

end Dryass
